import Mathlib

/-!
Verification of the content-extraction pipeline in `conex.py` (mosioc/web-content-extractor).

The program is a linear pipeline over a BeautifulSoup document tree:
fetch → sanitize (drop script/style/iframe/nav/footer/aside) → select a "main content"
node by a keyword scoring heuristic → re-wrap it in a fresh html/head/body skeleton →
inject a style block → serialize to a file whose name derives from the title.

We shallowly embed the document tree and each pipeline function as pure Lean
definitions. BeautifulSoup (bs4) semantics used by the embedding:
  * `soup.find_all(names)` / `soup.find(name)` traverse all elements in document
    order (preorder) and filter by tag name; `soup.body`, `soup.head`, `soup.html`
    are `find` on the respective tag.
  * `Tag.get('id')` yields the id string or `None`; `Tag.get('class')` yields the
    class token list (`class` is a multi-valued attribute), or `None` when absent.
  * Python truthiness: `None` and empty strings/lists are falsy; a bs4 `Tag`
    object is always truthy.
  * `Tag.append` / `Tag.insert` detach the argument from its old position and
    raise `ValueError ("Cannot insert None into a tag.")` when handed `None`.
  * `Tag.decompose` removes the element together with its whole subtree.
  * `list.sort` with a score key and `reverse=True` is a stable descending sort:
    entries with equal scores keep their original relative order.
  * `BeautifulSoup(text, 'html.parser')` repairs malformed markup without raising
    and does not synthesize missing `html`/`head`/`body` elements.
Raised exceptions are embedded as `Except.error`, the `None` sentinel as `none`.
-/

namespace Conex

/-- A node of the parsed document tree: either a text node or an element with a
tag name, the `id` attribute, the multi-valued `class` attribute, the remaining
attributes, and the ordered children. -/
inductive Node where
  | text (s : String) : Node
  | elem (tag : String) (idAttr : Option String) (classAttr : Option (List String))
      (attrs : List (String × String)) (children : List Node) : Node
deriving Repr

mutual

/-- Decidable equality of nodes (structural, by recursion over the tree). -/
def Node.decEq : (a b : Node) → Decidable (a = b)
  | .text s, .text s2 =>
    if h : s = s2 then .isTrue (by rw [h]) else .isFalse (fun he => h (by cases he; rfl))
  | .text _, .elem _ _ _ _ _ => .isFalse (fun he => Node.noConfusion he)
  | .elem _ _ _ _ _, .text _ => .isFalse (fun he => Node.noConfusion he)
  | .elem t i c a ch, .elem t2 i2 c2 a2 ch2 =>
    if h1 : t = t2 then
      if h2 : i = i2 then
        if h3 : c = c2 then
          if h4 : a = a2 then
            match Node.decEqList ch ch2 with
            | .isTrue h5 => .isTrue (by rw [h1, h2, h3, h4, h5])
            | .isFalse h5 => .isFalse (fun he => h5 (by cases he; rfl))
          else .isFalse (fun he => h4 (by cases he; rfl))
        else .isFalse (fun he => h3 (by cases he; rfl))
      else .isFalse (fun he => h2 (by cases he; rfl))
    else .isFalse (fun he => h1 (by cases he; rfl))

/-- Decidable equality of node lists. -/
def Node.decEqList : (l m : List Node) → Decidable (l = m)
  | [], [] => .isTrue rfl
  | [], _ :: _ => .isFalse (fun he => List.noConfusion he)
  | _ :: _, [] => .isFalse (fun he => List.noConfusion he)
  | n :: ns, m :: ms =>
    match Node.decEq n m, Node.decEqList ns ms with
    | .isTrue h1, .isTrue h2 => .isTrue (by rw [h1, h2])
    | .isFalse h1, _ => .isFalse (fun he => h1 (by cases he; rfl))
    | _, .isFalse h2 => .isFalse (fun he => h2 (by cases he; rfl))

end

instance : DecidableEq Node := Node.decEq

mutual

/-- Structural equality of two nodes, checking the tag, every attribute and,
recursively, every descendant — the notion of subtree preservation used by the
round-trip property. -/
def Node.structEq : Node → Node → Bool
  | .text s, .text s2 => s == s2
  | .elem t i c a ch, .elem t2 i2 c2 a2 ch2 =>
    t == t2 && i == i2 && c == c2 && a == a2 && Node.structEqList ch ch2
  | _, _ => false

/-- Pointwise structural equality of two child lists. -/
def Node.structEqList : List Node → List Node → Bool
  | [], [] => true
  | n :: ns, m :: ms => Node.structEq n m && Node.structEqList ns ms
  | _, _ => false

end

mutual

/-- Elements of a node's subtree in document order (preorder), itself included;
text nodes contribute nothing. -/
def elemsOfNode : Node → List Node
  | .text _ => []
  | .elem t i c a ch => .elem t i c a ch :: allElems ch

/-- Every element of the forest in document order (preorder), the traversal
order of bs4's `find_all` and `find`. -/
def allElems : List Node → List Node
  | [] => []
  | n :: ns => elemsOfNode n ++ allElems ns

end

/-- Does the node have the given tag name (text nodes match nothing)? -/
def hasTag (name : String) : Node → Bool
  | .text _ => false
  | .elem t _ _ _ _ => t == name

/-- Embedding of `soup.find(name)` (also of the attribute forms `soup.body`,
`soup.head`, `soup.html`, `content.find('title')`): the first element with the
given tag in document order, if any. -/
def findTag (name : String) (doc : List Node) : Option Node :=
  (allElems doc).find? (hasTag name)

/-- Tags removed by the sanitizer loop in `extract_web_content`. -/
def badTags : List String := ["script", "style", "iframe", "nav", "footer", "aside"]

/-- Is the node an element carrying one of the sanitized-away tags? -/
def isBad : Node → Bool
  | .text _ => false
  | .elem t _ _ _ _ => t ∈ badTags

mutual

/-- Sanitization of a single node: a bad-tagged element disappears with its
whole subtree, any other node is kept and sanitized recursively. -/
def removeBadNode : Node → List Node
  | .text s => [.text s]
  | .elem t i c a ch => if t ∈ badTags then [] else [.elem t i c a (removeBad ch)]

/-- Net effect on the tree of `for x in soup([...bad tags...]): x.decompose()`:
`find_all` materializes the matches first, and decomposing an element drops it
with its entire subtree (decomposing an already detached descendant does not
change the tree), so the loop removes every element whose tag is in `badTags`
together with its subtree and keeps everything else in place. -/
def removeBad : List Node → List Node
  | [] => []
  | n :: ns => removeBadNode n ++ removeBad ns

end

/-- Embedding of `extract_web_content(url)` as a function of the fetch outcome:
`error e` models `requests.get`/`raise_for_status` raising a `RequestException`
(the except branch prints a diagnostic and returns `None`), `ok doc` models a
successful fetch whose body parses to `doc`; the lenient parser never fails.
On success the sanitizer pass runs over the parsed tree. -/
def extract_web_content (fetched : Except String (List Node)) : Option (List Node) :=
  match fetched with
  | .error _ => none
  | .ok doc => some (removeBad doc)

/-- Keyword list of the content heuristic in `extract_core_content`. -/
def searchTerms : List String := ["content", "main", "article", "post", "entry"]

/-- Python's `term in s` substring test. -/
def strContains (s term : String) : Bool := decide (term.data <:+: s.data)

/-- Python's `str.lower`, as a character map. Lean's `Char.toLower` only lowers
ASCII letters; for containment of the five ASCII search terms this agrees with
Python's Unicode lowercasing on every input. -/
def strLower (s : String) : String := String.mk (s.data.map Char.toLower)

/-- Does the string contain any of the five search terms?  Matches
`any(term in s for term in [...])`. -/
def containsAnyTerm (s : String) : Bool := searchTerms.any (fun t => strContains s t)

/-- The id check of the heuristic:
`candidate.get('id') and any(term in candidate.get('id').lower() ...)`.
An absent id, and the falsy empty string, fail the first conjunct. -/
def idMatch : Node → Bool
  | .text _ => false
  | .elem _ i _ _ _ =>
    match i with
    | none => false
    | some s => s != "" && containsAnyTerm (strLower s)

/-- The class check of the heuristic: `candidate.get('class')` is truthy
(present, non-empty list) and `' '.join(classes).lower()` contains a term. -/
def classMatch : Node → Bool
  | .text _ => false
  | .elem _ _ c _ _ =>
    match c with
    | none => false
    | some cs => !cs.isEmpty && containsAnyTerm (strLower (String.intercalate " " cs))

/-- Tag names enumerated by `soup.find_all(['main', 'article', 'div'])`. -/
def cmdTags : List String := ["main", "article", "div"]

/-- Is the node a `main`, `article` or `div` element? -/
def isCMD : Node → Bool
  | .text _ => false
  | .elem t _ _ _ _ => t ∈ cmdTags

/-- Embedding of `main_candidates = soup.find_all(['main', 'article', 'div'])`:
all such elements in document order, nested ones included. -/
def mainCandidates (doc : List Node) : List Node := (allElems doc).filter isCMD

/-- Candidate entries contributed by one element of `main_candidates`: the two
`if` statements append `(candidate, 3)` on an id match and, independently,
`(candidate, 2)` on a class match — never a merged entry. -/
def scoreEntries (e : Node) : List (Node × Nat) :=
  (if idMatch e then [(e, 3)] else []) ++ (if classMatch e then [(e, 2)] else [])

/-- The full `content_candidates` list, built by one pass over
`main_candidates` in document order. -/
def candidatesOf (doc : List Node) : List (Node × Nat) :=
  (mainCandidates doc).flatMap scoreEntries

/-- Insertion step of the stable descending-by-score sort: walk past entries
with strictly larger score and stop in front of the first entry whose score is
`≤` ours, so an earlier-registered entry ends up in front of equal scores. -/
def insertDesc (c : Node × Nat) : List (Node × Nat) → List (Node × Nat)
  | [] => [c]
  | d :: ds => if d.2 ≤ c.2 then c :: d :: ds else d :: insertDesc c ds

/-- Embedding of `content_candidates.sort(key=lambda x: x[1], reverse=True)`:
Python's sort is stable and, under `reverse=True`, descending by the key, which
determines the output uniquely; `sortDesc` is a stable insertion sort realizing
exactly that (proved sorted and stable below). -/
def sortDesc : List (Node × Nat) → List (Node × Nat)
  | [] => []
  | c :: cs => insertDesc c (sortDesc cs)

/-- The node `extract_core_content` settles on before re-wrapping:
`content_candidates[0][0]` after the sort when the candidate list is truthy
(non-empty), otherwise the fallback `soup.body` (which may be `None`). -/
def selectMain (doc : List Node) : Option Node :=
  let cands := candidatesOf doc
  if cands.isEmpty then findTag "body" doc
  else ((sortDesc cands).head?).map Prod.fst

/-- The parse of `'<html><head><meta charset="utf-8"></head><body></body></html>'`
after `new_soup.body.append(content)` moved the selected node into its body. -/
def newDocFor (content : Node) : List Node :=
  [.elem "html" none none []
    [.elem "head" none none [] [.elem "meta" none none [("charset", "utf-8")] []],
     .elem "body" none none [] [content]]]

/-- Embedding of `extract_core_content(soup)`. The `None` sentinel is returned
unchanged (`if not soup: return None`); otherwise the scored selection runs and
the selected node is moved into a fresh skeleton. When there is no candidate
and no `body` element, `main_content` is `None` and `new_soup.body.append(None)`
raises `ValueError`, embedded as `Except.error`. -/
def extract_core_content (soup : Option (List Node)) : Except String (Option (List Node)) :=
  match soup with
  | none => .ok none
  | some doc =>
    match selectMain doc with
    | none => .error "ValueError: Cannot insert None into a tag."
    | some mc => .ok (some (newDocFor mc))

/-- The CSS text assigned to the injected style tag in
`enhance_content_preservation` (braces written as `\x7b`/`\x7d`). -/
def styleCSS : String :=
  "\n    pre, code \x7b\n        background-color: #f6f8fa;\n        border-radius: 3px;\n        font-family: monospace;\n        padding: 0.2em 0.4em;\n        overflow-x: auto;\n    \x7d\n    pre code \x7b\n        background-color: transparent;\n        padding: 0;\n    \x7d\n    pre \x7b\n        padding: 16px;\n        line-height: 1.45;\n    \x7d\n    img \x7b\n        max-width: 100%;\n        height: auto;\n    \x7d\n    table \x7b\n        border-collapse: collapse;\n        width: 100%;\n    \x7d\n    table, th, td \x7b\n        border: 1px solid #ddd;\n        padding: 8px;\n    \x7d\n    "

/-- The tag built by `soup.new_tag('style'); style_tag.string = ...`. -/
def styleTag : Node := .elem "style" none none [] [.text styleCSS]

mutual

/-- Rewrite of the first element with the given tag in preorder within one
node's subtree: `f` is applied to its child list. `none` means the subtree has
no such element. Embeds a bs4 mutation of the element `soup.find(name)` finds. -/
def onFirstTagN (name : String) (f : List Node → List Node) : Node → Option Node
  | .text _ => none
  | .elem t i c a ch =>
    if t == name then some (.elem t i c a (f ch))
    else (onFirstTagL name f ch).map (fun ch2 => .elem t i c a ch2)

/-- Rewrite of the first element with the given tag in preorder within a
forest, `none` when there is no such element: the head node's subtree is tried
first (preorder), then the remaining siblings. -/
def onFirstTagL (name : String) (f : List Node → List Node) : List Node → Option (List Node)
  | [] => none
  | n :: ns =>
    ((onFirstTagN name f n).map (fun n2 => n2 :: ns)).or
      ((onFirstTagL name f ns).map (fun ns2 => n :: ns2))

end

/-- Embedding of `enhance_content_preservation(soup)`: the sentinel propagates;
with a `head` element present (`soup.head` is a Tag, always truthy), the style
tag is appended to the first head's children (`soup.head.append(style_tag)`);
otherwise a fresh head holding the style tag is inserted as first child of
`soup.html` — which raises `AttributeError` when the document has no `html`
element either, since `soup.html` is then `None`. -/
def enhance_content_preservation (soup : Option (List Node)) :
    Except String (Option (List Node)) :=
  match soup with
  | none => .ok none
  | some doc =>
    match onFirstTagL "head" (fun ch => ch ++ [styleTag]) doc with
    | some doc2 => .ok (some doc2)
    | none =>
      match onFirstTagL "html" (fun ch => .elem "head" none none [] [styleTag] :: ch) doc with
      | some doc2 => .ok (some doc2)
      | none => .error "AttributeError: NoneType object has no attribute insert"

mutual

/-- Concatenated text of one node, as `Tag.text` produces it: all descendant
text nodes in document order. -/
def textOfNode : Node → String
  | .text s => s
  | .elem _ _ _ _ ch => textOfList ch

/-- Concatenated text of a forest in document order. -/
def textOfList : List Node → String
  | [] => ""
  | n :: ns => textOfNode n ++ textOfList ns

end

/-- Python's `str.strip()`: leading and trailing whitespace removed. -/
def pyStrip (s : String) : String :=
  String.mk (((s.data.dropWhile Char.isWhitespace).reverse.dropWhile Char.isWhitespace).reverse)

/-- Models Python's `str.isalnum` for the characters this development evaluates
it on: exact on every code point below `U+0100` — ASCII alphanumerics
(`Char.isAlphanum`), the Latin-1 letters `U+00C0`–`U+00FF` without the two signs
`×`/`÷`, and the Latin-1 letter/numeric characters ª µ º ² ³ ¹ ¼ ½ ¾. Code
points above `U+00FF` are conservatively rejected; no theorem below applies it
to such a character. -/
def pyIsAlnum (c : Char) : Bool :=
  c.isAlphanum
    || (0xC0 ≤ c.toNat && c.toNat ≤ 0xFF && c.toNat != 0xD7 && c.toNat != 0xF7)
    || c.toNat ∈ [0xAA, 0xB2, 0xB3, 0xB5, 0xB9, 0xBA, 0xBC, 0xBD, 0xBE]

/-- One character of the filename sanitization
`c if c.isalnum() or c in ' -_' else '_'` (the membership test `c in ' -_'`
spelled out over the three characters of that string). -/
def sanitizeChar (c : Char) : Char :=
  if pyIsAlnum c || c == ' ' || c == '-' || c == '_' then c else '_'

/-- The `safe_title` computation of `save_content_html`: sanitize every
character of the title, then truncate to the first 50 characters. -/
def safeTitle (title : String) : String :=
  String.mk ((title.data.map sanitizeChar).take 50)

/-- Models `urlparse(url).netloc`: the authority component, present exactly when
the remainder after an optional `scheme:` prefix begins with `//`, extending to
the next `/`, `?` or `#`. Only the no-title fallback of `save_content_html`
consults it, and no theorem below depends on its fine structure. -/
def netlocOf (url : String) : String :=
  let dropScheme : List Char → List Char := fun l =>
    let pre := l.takeWhile (fun c => c != ':')
    match l.drop pre.length with
    | ':' :: rest =>
      if !pre.isEmpty && pre.all (fun c => c.isAlphanum || c == '+' || c == '-' || c == '.')
          && (pre.headD ' ').isAlpha then rest else l
    | _ => l
  match dropScheme url.data with
  | '/' :: '/' :: rest => String.mk (rest.takeWhile (fun c => c != '/' && c != '?' && c != '#'))
  | _ => ""

/-- The title `save_content_html` derives: the stripped text of the first
`title` element when one exists (a Tag is always truthy), else the URL's host. -/
def derivedTitle (doc : List Node) (url : String) : String :=
  match findTag "title" doc with
  | some t => pyStrip (textOfNode t)
  | none => netlocOf url

mutual

/-- Serialized form of one attribute-bearing element or text node, modelling
`str(content)` far enough to capture that serialization is a function of the
tree alone: tag, id, class tokens, remaining attributes and children in order. -/
def renderNode : Node → String
  | .text s => s
  | .elem t i c a ch =>
    let idPart := match i with
      | none => ""
      | some s => " id=\"" ++ s ++ "\""
    let classPart := match c with
      | none => ""
      | some cs => " class=\"" ++ String.intercalate " " cs ++ "\""
    let attrPart := String.join (a.map (fun p => " " ++ p.1 ++ "=\"" ++ p.2 ++ "\""))
    "<" ++ t ++ idPart ++ classPart ++ attrPart ++ ">" ++ renderList ch ++ "</" ++ t ++ ">"

/-- Serialized form of a forest, children in order. -/
def renderList : List Node → String
  | [] => ""
  | n :: ns => renderNode n ++ renderList ns

end

/-- Embedding of `save_content_html(content, url, output_path)`. The sentinel
yields `none`; otherwise the derived title is sanitized into a filename (with
`.html` appended) unless a truthy explicit output path overrides it, and the
serialized document is written there. The returned pair is (path written,
file contents). -/
def save_content_html (content : Option (List Node)) (url : String)
    (outputPath : Option String) : Option (String × String) :=
  match content with
  | none => none
  | some doc =>
    let safe := safeTitle (derivedTitle doc url)
    let path := match outputPath with
      | some p => if p == "" then safe ++ ".html" else p
      | none => safe ++ ".html"
    some (path, renderList doc)

/-- Observable outcome of one pipeline run: everything printed to standard
output, in order, and the file written (path and contents), if any. -/
structure RunResult where
  printed : List String
  written : Option (String × String)
deriving Repr, DecidableEq

/-- Embedding of `main()` as a function of the fetch outcome, the `url`
argument and the optional `-o` argument. An uncaught exception from a pipeline
stage aborts the process and is embedded as `Except.error`; every normal return
yields the printed lines and the written file. -/
def mainRun (fetched : Except String (List Node)) (url : String)
    (outputArg : Option String) : Except String RunResult :=
  let p0 := "Extracting content from: " ++ url
  match extract_web_content fetched with
  | none =>
    let fetchPrints := match fetched with
      | .error e => ["Error fetching URL: " ++ e]
      | .ok _ => []
    .ok ⟨p0 :: fetchPrints ++ ["Failed to extract content"], none⟩
  | some soup =>
    match extract_core_content (some soup) with
    | .error msg => .error msg
    | .ok none => .ok ⟨[p0, "Failed to find core content"], none⟩
    | .ok (some core) =>
      match enhance_content_preservation (some core) with
      | .error msg => .error msg
      | .ok none => .ok ⟨[p0, "Failed to save content"], none⟩
      | .ok (some enhanced) =>
        match save_content_html (some enhanced) url outputArg with
        | none => .ok ⟨[p0, "Failed to save content"], none⟩
        | some pc =>
          .ok ⟨[p0, "Content successfully saved to: " ++ pc.1], some pc⟩

/-- The character class `[A-Za-z0-9 _-]` named by the specification's
filename-sanitization clause (claim wording, for comparison with the code's
`sanitizeChar`): ASCII alphanumerics, space, hyphen, underscore. -/
def specFilenameClass (c : Char) : Bool :=
  c.isAlphanum || c == ' ' || c == '-' || c == '_'

/-- The selected node is the node of an entry of the candidate list whose score
is weakly maximal and which is the first entry attaining that score (what a
stable descending sort followed by `[0]` produces). -/
def firstMaxSelected (cands : List (Node × Nat)) (n : Node) : Prop :=
  ∃ i : Fin cands.length, n = (cands.get i).1 ∧
    (∀ j : Fin cands.length, (cands.get j).2 ≤ (cands.get i).2) ∧
    (∀ j : Fin cands.length, j.val < i.val → (cands.get j).2 < (cands.get i).2)

/-- The selected node is the node of an entry whose score is strictly greater
than the score of every other entry of the candidate list (the specification's
"strictly maximal" reading). -/
def strictMaxSelected (cands : List (Node × Nat)) (n : Node) : Prop :=
  ∃ i : Fin cands.length, n = (cands.get i).1 ∧
    ∀ j : Fin cands.length, j ≠ i → (cands.get j).2 < (cands.get i).2

/-- Example document with two tied candidates: two divs whose ids both match a
search term, each scored 3. -/
def tieDoc : List Node :=
  [.elem "div" (some "content") none [] [], .elem "div" (some "main") none [] []]

/-- First div of `tieDoc`, the node the extractor selects there. -/
def tieDiv : Node := .elem "div" (some "content") none [] []

/-- Example element matching both the id check and the class check. -/
def dualDiv : Node := .elem "div" (some "main-content") (some ["post"]) [] [.text "X"]

/-- Example document whose only candidate element is `dualDiv`. -/
def dualDoc : List Node := [dualDiv]

/-- Example document with no `main`/`article`/`div` keyword match and no `body`
element (bs4's `html.parser` does not synthesize one): the parse of `<p>hi</p>`. -/
def noBodyDoc : List Node := [.elem "p" none none [] [.text "hi"]]

/-- Example document whose first (and only) `head` element sits inside the
`body` element. -/
def headInBodyDoc : List Node :=
  [.elem "body" none none [] [.elem "head" none none [] []]]

/-- Example well-formed document with a `head` (holding a charset meta and a
`title`) and a `body`. -/
def wellFormedDoc : List Node :=
  [.elem "html" none none []
    [.elem "head" none none []
      [.elem "meta" none none [("charset", "utf-8")] [],
       .elem "title" none none [] [.text " A Title "]],
     .elem "body" none none [] [.text "hello"]]]

/-! ### General lemmas about the embedded operations -/

theorem allElems_append : ∀ (l1 l2 : List Node),
    allElems (l1 ++ l2) = allElems l1 ++ allElems l2
  | [], _ => rfl
  | n :: ns, l2 => by simp [allElems, allElems_append ns l2]

theorem removeBad_append : ∀ (l1 l2 : List Node),
    removeBad (l1 ++ l2) = removeBad l1 ++ removeBad l2
  | [], _ => rfl
  | n :: ns, l2 => by simp [removeBad, removeBad_append ns l2]

mutual

theorem removeBadNode_noBad : ∀ (n : Node),
    (allElems (removeBadNode n)).all (fun e => !isBad e) = true
  | .text _ => rfl
  | .elem t i c a ch => by
    by_cases hb : t ∈ badTags
    · simp [removeBadNode, hb, allElems]
    · simp only [removeBadNode, if_neg hb, allElems, elemsOfNode, List.append_nil,
        List.all_cons, Bool.and_eq_true]
      exact ⟨by simp [isBad, hb], removeBad_noBad ch⟩

theorem removeBad_noBad : ∀ (l : List Node),
    (allElems (removeBad l)).all (fun e => !isBad e) = true
  | [] => rfl
  | n :: ns => by
    simp [removeBad, allElems_append, List.all_append,
      removeBadNode_noBad n, removeBad_noBad ns]

end

mutual

theorem removeBadNode_idem : ∀ (n : Node), removeBad (removeBadNode n) = removeBadNode n
  | .text _ => rfl
  | .elem t i c a ch => by
    by_cases hb : t ∈ badTags
    · simp [removeBadNode, hb, removeBad]
    · simp [removeBadNode, hb, removeBad, removeBad_idem ch]

theorem removeBad_idem : ∀ (l : List Node), removeBad (removeBad l) = removeBad l
  | [] => rfl
  | n :: ns => by
    simp [removeBad, removeBad_append, removeBadNode_idem n, removeBad_idem ns]

end

mutual

theorem Node.structEq_refl : ∀ (n : Node), Node.structEq n n = true
  | .text _ => by simp [Node.structEq]
  | .elem t i c a ch => by simp [Node.structEq, Node.structEqList_refl ch]

theorem Node.structEqList_refl : ∀ (l : List Node), Node.structEqList l l = true
  | [] => rfl
  | n :: ns => by simp [Node.structEqList, Node.structEq_refl n, Node.structEqList_refl ns]

end

/-! ### The stable descending sort -/

theorem insertDesc_perm (c : Node × Nat) : ∀ (l : List (Node × Nat)),
    List.Perm (insertDesc c l) (c :: l)
  | [] => .refl _
  | d :: ds => by
    by_cases h : d.2 ≤ c.2
    · simp only [insertDesc, if_pos h]
      exact List.Perm.refl _
    · simp only [insertDesc, if_neg h]
      exact ((insertDesc_perm c ds).cons d).trans (List.Perm.swap c d ds)

theorem sortDesc_perm : ∀ (l : List (Node × Nat)), List.Perm (sortDesc l) l
  | [] => .refl _
  | c :: cs => (insertDesc_perm c (sortDesc cs)).trans ((sortDesc_perm cs).cons c)

theorem insertDesc_sorted (c : Node × Nat) : ∀ (l : List (Node × Nat)),
    l.Pairwise (fun a b => b.2 ≤ a.2) →
    (insertDesc c l).Pairwise (fun a b => b.2 ≤ a.2)
  | [], _ => by simp [insertDesc]
  | d :: ds, h => by
    rcases List.pairwise_cons.mp h with ⟨hds, htail⟩
    by_cases hd : d.2 ≤ c.2
    · simp only [insertDesc, if_pos hd]
      refine List.pairwise_cons.mpr ⟨?_, h⟩
      intro b hb
      rcases List.mem_cons.mp hb with rfl | hb
      · exact hd
      · exact le_trans (hds b hb) hd
    · simp only [insertDesc, if_neg hd]
      refine List.pairwise_cons.mpr ⟨?_, insertDesc_sorted c ds htail⟩
      intro b hb
      rcases List.mem_cons.mp ((insertDesc_perm c ds).mem_iff.mp hb) with rfl | hb
      · exact Nat.le_of_lt (Nat.not_le.mp hd)
      · exact hds b hb

theorem sortDesc_sorted : ∀ (l : List (Node × Nat)),
    (sortDesc l).Pairwise (fun a b => b.2 ≤ a.2)
  | [] => List.Pairwise.nil
  | c :: cs => insertDesc_sorted c (sortDesc cs) (sortDesc_sorted cs)

theorem insertDesc_filter (v : Nat) (c : Node × Nat) : ∀ (l : List (Node × Nat)),
    (insertDesc c l).filter (fun p => p.2 == v) =
      (if c.2 == v then [c] else []) ++ l.filter (fun p => p.2 == v)
  | [] => by by_cases hc : c.2 == v <;> simp_all [insertDesc, List.filter_cons]
  | d :: ds => by
    by_cases hd : d.2 ≤ c.2
    · simp only [insertDesc, if_pos hd, List.filter_cons]
      by_cases hc : c.2 == v <;> simp [hc]
    · simp only [insertDesc, if_neg hd, List.filter_cons, insertDesc_filter v c ds]
      by_cases hc : c.2 == v
      · have hcv : c.2 = v := by simpa using hc
        have hdv : (d.2 == v) = false := by
          have : ¬ d.2 = v := by omega
          simpa using this
        simp [hc, hdv]
      · simp [hc]

theorem sortDesc_filter (v : Nat) : ∀ (l : List (Node × Nat)),
    (sortDesc l).filter (fun p => p.2 == v) = l.filter (fun p => p.2 == v)
  | [] => rfl
  | c :: cs => by
    simp only [sortDesc, insertDesc_filter v c (sortDesc cs), sortDesc_filter v cs,
      List.filter_cons]
    by_cases hc : c.2 == v <;> simp [hc]

theorem sortDesc_head : ∀ (l : List (Node × Nat)), l ≠ [] →
    ∃ l1 x l2, l = l1 ++ x :: l2 ∧ (sortDesc l).head? = some x ∧
      (∀ y ∈ l, y.2 ≤ x.2) ∧ (∀ y ∈ l1, y.2 < x.2)
  | [], h => absurd rfl h
  | c :: cs, _ => by
    rcases eq_or_ne cs [] with rfl | hcs
    · exact ⟨[], c, [], rfl, rfl, by simp, by simp⟩
    · obtain ⟨l1, x, l2, hsplit, hhead, hmax, hstrict⟩ := sortDesc_head cs hcs
      obtain ⟨s', hs⟩ : ∃ s', sortDesc cs = x :: s' := by
        cases h : sortDesc cs with
        | nil => rw [h] at hhead; cases hhead
        | cons a s' =>
          rw [h] at hhead
          exact ⟨s', by rw [show a = x from by simpa using hhead]⟩
      by_cases hx : x.2 ≤ c.2
      · refine ⟨[], c, cs, rfl, ?_, ?_, by simp⟩
        · simp [sortDesc, hs, insertDesc, if_pos hx]
        · intro y hy
          rcases List.mem_cons.mp hy with rfl | hy
          · exact le_refl _
          · exact le_trans (hmax y hy) hx
      · refine ⟨c :: l1, x, l2, by simp [hsplit], ?_, ?_, ?_⟩
        · simp [sortDesc, hs, insertDesc, if_neg hx]
        · intro y hy
          rcases List.mem_cons.mp hy with rfl | hy
          · exact Nat.le_of_lt (Nat.not_le.mp hx)
          · exact hmax y hy
        · intro y hy
          rcases List.mem_cons.mp hy with rfl | hy
          · exact Nat.not_le.mp hx
          · exact hstrict y hy

theorem firstMax_of_split (l1 : List (Node × Nat)) (x : Node × Nat) (l2 : List (Node × Nat))
    (hmax : ∀ y ∈ l1 ++ x :: l2, y.2 ≤ x.2) (hstrict : ∀ y ∈ l1, y.2 < x.2) :
    firstMaxSelected (l1 ++ x :: l2) x.1 := by
  have hlen : l1.length < (l1 ++ x :: l2).length := by
    simp [List.length_append]
  have hget : (l1 ++ x :: l2).get ⟨l1.length, hlen⟩ = x := by
    simp [List.get_eq_getElem]
    rw [List.getElem_append_right (Nat.le_refl _)]
    simp
  refine ⟨⟨l1.length, hlen⟩, by rw [hget], ?_, ?_⟩
  · intro j
    rw [hget]
    exact hmax _ (List.get_mem _ _ _)
  · intro j hj
    rw [hget]
    have hjl : j.val < l1.length := hj
    have hj2 : (l1 ++ x :: l2).get j = l1.get ⟨j.val, hjl⟩ := by
      simp [List.get_eq_getElem]
      rw [List.getElem_append_left hjl]
    rw [hj2]
    exact hstrict _ (List.get_mem _ _ _)

/-! ### Claim theorems -/

/-- C2: for a document with neither an id/class keyword match nor a `body`
element, the specification says `extract_core_content` returns the null
sentinel and the driver prints a diagnostic and halts before writing. The code
instead reaches `new_soup.body.append(None)` there, which raises `ValueError`,
so the run aborts with an uncaught exception — no sentinel is returned and the
driver's diagnostic branch is never taken (though indeed no file is written).
Evaluated on the parse of `<p>hi</p>`. -/
theorem c2_theorem :
    selectMain noBodyDoc = none ∧
    extract_core_content (some noBodyDoc) =
      .error "ValueError: Cannot insert None into a tag." ∧
    mainRun (.ok noBodyDoc) "http://example.com/x" none =
      .error "ValueError: Cannot insert None into a tag." :=
  ⟨rfl, rfl, rfl⟩

/-- C5: the sanitizer removal pass (the tree effect of `extract_web_content`'s
decompose loop) leaves no script/style/iframe/nav/footer/aside element anywhere
in the tree, and running it a second time on its own output changes nothing. -/
theorem c5_theorem (doc : List Node) :
    extract_web_content (.ok doc) = some (removeBad doc) ∧
    (allElems (removeBad doc)).all (fun e => !isBad e) = true ∧
    removeBad (removeBad doc) = removeBad doc :=
  ⟨rfl, removeBad_noBad doc, removeBad_idem doc⟩

/-- C6: whenever `extract_core_content` selects a node, the new document's
body has exactly that node as its sole child, structurally equal (same tag,
attributes and all descendants) to the selected source subtree — the move
preserves the subtree exactly. -/
theorem c6_theorem (doc : List Node) (n : Node) (h : selectMain doc = some n) :
    extract_core_content (some doc) = .ok (some (newDocFor n)) ∧
    findTag "body" (newDocFor n) = some (.elem "body" none none [] [n]) ∧
    Node.structEqList [n] [n] = true ∧ Node.structEq n n = true :=
  ⟨by simp [extract_core_content, h], rfl,
    Node.structEqList_refl [n], Node.structEq_refl n⟩

/-- C6 witness: the selection and the round-trip evaluated on a concrete
document. -/
theorem c6_witness :
    selectMain dualDoc = some dualDiv ∧
    (extract_core_content (some dualDoc) = .ok (some (newDocFor dualDiv)) ∧
      findTag "body" (newDocFor dualDiv) = some (.elem "body" none none [] [dualDiv]) ∧
      Node.structEqList [dualDiv] [dualDiv] = true ∧
      Node.structEq dualDiv dualDiv = true) :=
  ⟨by decide, c6_theorem dualDoc dualDiv (by decide)⟩

/-- C9: when the document contains a `title` element, both the returned path
and the written contents of `save_content_html` are identical for any two URLs
(and any output argument) — the URL can influence the output only through the
no-title fallback. -/
theorem c9_theorem (doc : List Node) (t : Node) (h : findTag "title" doc = some t)
    (u1 u2 : String) (out : Option String) :
    save_content_html (some doc) u1 out = save_content_html (some doc) u2 out := by
  simp [save_content_html, derivedTitle, h]

/-- C9 witness: two different URLs produce the identical path and contents on
a titled document. -/
theorem c9_witness :
    findTag "title" wellFormedDoc = some (.elem "title" none none [] [.text " A Title "]) ∧
    save_content_html (some wellFormedDoc) "http://a.example/x" none =
      save_content_html (some wellFormedDoc) "http://b.example/y" none :=
  ⟨by decide,
    c9_theorem wellFormedDoc (.elem "title" none none [] [.text " A Title "]) (by decide)
      "http://a.example/x" "http://b.example/y" none⟩

theorem candidate_scores (doc : List Node) :
    ∀ p ∈ candidatesOf doc, p.2 = 3 ∨ p.2 = 2 := by
  intro p hp
  rcases List.mem_flatMap.mp hp with ⟨a, _, hpa⟩
  by_cases hia : idMatch a <;> by_cases hca : classMatch a <;>
      simp [scoreEntries, hia, hca] at hpa
  · rcases hpa with rfl | rfl
    · exact Or.inl rfl
    · exact Or.inr rfl
  · subst hpa; exact Or.inl rfl
  · subst hpa; exact Or.inr rfl

/-- C1 counterexample: on a document with two divs whose ids both match a
keyword, each entry scores 3, the extractor selects the first div, and no
candidate entry has a strictly maximal score — the claim's strict-maximality
conclusion fails while its hypothesis holds. -/
theorem c1_counterexample :
    (∃ e ∈ mainCandidates tieDoc, idMatch e = true ∨ classMatch e = true) ∧
    selectMain tieDoc = some tieDiv ∧
    extract_core_content (some tieDoc) = .ok (some (newDocFor tieDiv)) ∧
    ¬ strictMaxSelected (candidatesOf tieDoc) tieDiv := by
  refine ⟨by decide, by decide, rfl, ?_⟩
  unfold strictMaxSelected
  decide

/-- C1 (amended): whenever some main/article/div element matches the id or
class check, `extract_core_content` returns a non-null result, and the node
placed into the new document's body is the node of a candidate entry whose
score is weakly maximal and which is the first entry attaining that maximum
(registration order: document order, id entry before class entry) — strict
maximality holds only in the absence of ties. -/
theorem c1_theorem (doc : List Node)
    (h : ∃ e ∈ mainCandidates doc, idMatch e = true ∨ classMatch e = true) :
    ∃ n, selectMain doc = some n ∧
      extract_core_content (some doc) = .ok (some (newDocFor n)) ∧
      findTag "body" (newDocFor n) = some (.elem "body" none none [] [n]) ∧
      firstMaxSelected (candidatesOf doc) n := by
  obtain ⟨e, he, hm⟩ := h
  have hne : candidatesOf doc ≠ [] := by
    rcases hm with hm | hm
    · exact List.ne_nil_of_mem
        (List.mem_flatMap.mpr ⟨e, he, by simp [scoreEntries, hm]⟩ :
          (e, 3) ∈ candidatesOf doc)
    · exact List.ne_nil_of_mem
        (List.mem_flatMap.mpr ⟨e, he, by simp [scoreEntries, hm]⟩ :
          (e, 2) ∈ candidatesOf doc)
  obtain ⟨l1, x, l2, hsplit, hhead, hmax, hstrict⟩ := sortDesc_head (candidatesOf doc) hne
  have hie : (candidatesOf doc).isEmpty = false := by
    simpa [List.isEmpty_iff] using hne
  have hsel : selectMain doc = some x.1 := by
    simp [selectMain, hie, hhead]
  refine ⟨x.1, hsel, by simp [extract_core_content, hsel], rfl, ?_⟩
  rw [hsplit]
  exact firstMax_of_split l1 x l2 (hsplit ▸ hmax) hstrict

/-- C1 witness: the amended selection property instantiated on a concrete
document (the tie document, where the first-registered maximal entry wins). -/
theorem c1_witness :
    (∃ e ∈ mainCandidates tieDoc, idMatch e = true ∨ classMatch e = true) ∧
    (∃ n, selectMain tieDoc = some n ∧
      extract_core_content (some tieDoc) = .ok (some (newDocFor n)) ∧
      findTag "body" (newDocFor n) = some (.elem "body" none none [] [n]) ∧
      firstMaxSelected (candidatesOf tieDoc) n) :=
  ⟨by decide, c1_theorem tieDoc (by decide)⟩

/-- C3: an element matching both checks contributes exactly the two unmerged
entries (node, 3) then (node, 2); no candidate ever scores 5 (every score is
3 or 2); the sort is descending and stable — entries of equal score keep their
registration order, as the score-filter invariance states; and when the winning
entry's node is such a dual-matching element, the winning score is 3 (its id
entry, never its class entry). -/
theorem c3_theorem (doc : List Node) (e : Node) (h1 : e ∈ mainCandidates doc)
    (h2 : idMatch e = true) (h3 : classMatch e = true) :
    scoreEntries e = [(e, 3), (e, 2)] ∧
    (∀ p ∈ candidatesOf doc, p.2 = 3 ∨ p.2 = 2) ∧
    (∀ v, (sortDesc (candidatesOf doc)).filter (fun p => p.2 == v) =
      (candidatesOf doc).filter (fun p => p.2 == v)) ∧
    (sortDesc (candidatesOf doc)).Pairwise (fun a b => b.2 ≤ a.2) ∧
    (∀ s, (sortDesc (candidatesOf doc)).head? = some (e, s) → s = 3) := by
  refine ⟨by simp [scoreEntries, h2, h3], candidate_scores doc,
    fun v => sortDesc_filter v _, sortDesc_sorted _, ?_⟩
  intro s hhead
  have hmem3 : (e, 3) ∈ candidatesOf doc :=
    List.mem_flatMap.mpr ⟨e, h1, by simp [scoreEntries, h2]⟩
  have hsorted := sortDesc_sorted (candidatesOf doc)
  have hperm := sortDesc_perm (candidatesOf doc)
  obtain ⟨rest, hrest⟩ : ∃ rest, sortDesc (candidatesOf doc) = (e, s) :: rest := by
    cases hsort : sortDesc (candidatesOf doc) with
    | nil => rw [hsort] at hhead; cases hhead
    | cons a r =>
      rw [hsort] at hhead
      exact ⟨r, by rw [show a = (e, s) from by simpa using hhead]⟩
  have hmem3s : (e, 3) ∈ sortDesc (candidatesOf doc) := hperm.mem_iff.mpr hmem3
  rw [hrest] at hmem3s hsorted
  rcases List.mem_cons.mp hmem3s with heq | hmem
  · injection heq with h1 h2
    omega
  · have h3le : 3 ≤ s := (List.pairwise_cons.mp hsorted).1 (e, 3) hmem
    have hsmem : (e, s) ∈ candidatesOf doc :=
      hperm.mem_iff.mp (by rw [hrest]; exact List.mem_cons_self _ _)
    rcases candidate_scores doc (e, s) hsmem with h | h <;> omega

/-- C3 witness: the dual-entry and stable-sort properties instantiated on a
document whose only candidate matches both checks. -/
theorem c3_witness :
    (dualDiv ∈ mainCandidates dualDoc ∧ idMatch dualDiv = true ∧
      classMatch dualDiv = true) ∧
    (scoreEntries dualDiv = [(dualDiv, 3), (dualDiv, 2)] ∧
      (∀ p ∈ candidatesOf dualDoc, p.2 = 3 ∨ p.2 = 2) ∧
      (∀ v, (sortDesc (candidatesOf dualDoc)).filter (fun p => p.2 == v) =
        (candidatesOf dualDoc).filter (fun p => p.2 == v)) ∧
      (sortDesc (candidatesOf dualDoc)).Pairwise (fun a b => b.2 ≤ a.2) ∧
      (∀ s, (sortDesc (candidatesOf dualDoc)).head? = some (dualDiv, s) → s = 3)) :=
  ⟨by refine ⟨by decide, by decide, by decide⟩,
    c3_theorem dualDoc dualDiv (by decide) (by decide) (by decide)⟩

/-- C4: with no id/class keyword match among the document's main/article/div
elements but with a `body` element present, `extract_core_content` selects
exactly the body element and moves it into the fresh skeleton. -/
theorem c4_theorem (doc : List Node) (b : Node)
    (h1 : (mainCandidates doc).all (fun e => !(idMatch e || classMatch e)) = true)
    (h2 : findTag "body" doc = some b) :
    selectMain doc = some b ∧
    extract_core_content (some doc) = .ok (some (newDocFor b)) ∧
    findTag "body" (newDocFor b) = some (.elem "body" none none [] [b]) := by
  have hcand : candidatesOf doc = [] := by
    rw [candidatesOf]
    rw [List.flatMap_eq_nil_iff]
    intro x hx
    have hx2 := List.all_eq_true.mp h1 x hx
    simp only [Bool.not_eq_eq_eq_not, Bool.not_true, Bool.or_eq_false_iff] at hx2
    simp [scoreEntries, hx2.1, hx2.2]
  have hsel : selectMain doc = some b := by
    simp [selectMain, hcand, h2]
  exact ⟨hsel, by simp [extract_core_content, hsel], rfl⟩

/-- C4 witness: the body fallback evaluated on a concrete document with a body
and no scored candidate. -/
theorem c4_witness :
    ((mainCandidates wellFormedDoc).all (fun e => !(idMatch e || classMatch e)) = true ∧
      findTag "body" wellFormedDoc = some (.elem "body" none none [] [.text "hello"])) ∧
    (selectMain wellFormedDoc = some (.elem "body" none none [] [.text "hello"]) ∧
      extract_core_content (some wellFormedDoc) =
        .ok (some (newDocFor (.elem "body" none none [] [.text "hello"]))) ∧
      findTag "body" (newDocFor (.elem "body" none none [] [.text "hello"])) =
        some (.elem "body" none none [] [.elem "body" none none [] [.text "hello"]])) :=
  ⟨⟨by decide, by decide⟩,
    c4_theorem wellFormedDoc (.elem "body" none none [] [.text "hello"])
      (by decide) (by decide)⟩

theorem sanitizeChar_ascii (c : Char) (hc : c.toNat < 128) :
    sanitizeChar c = if specFilenameClass c then c else '_' := by
  have hx : ¬ (0xC0 ≤ c.toNat) := by omega
  have hm : ¬ (c.toNat ∈ [0xAA, 0xB2, 0xB3, 0xB5, 0xB9, 0xBA, 0xBC, 0xBD, 0xBE]) := by
    intro h
    simp only [List.mem_cons, List.not_mem_nil, or_false] at h
    rcases h with h | h | h | h | h | h | h | h | h <;> omega
  have h1 : pyIsAlnum c = c.isAlphanum := by
    simp [pyIsAlnum, hx, hm]
  simp only [sanitizeChar, specFilenameClass, h1]

/-- C7 counterexample: Python's `str.isalnum` is Unicode-aware, so the
character `é` (U+00E9, a Latin-1 letter, outside `[A-Za-z0-9 _-]`) is kept by
the code's filename sanitization instead of being replaced by an underscore as
the claim requires. -/
theorem c7_counterexample :
    specFilenameClass 'é' = false ∧ safeTitle "é" = "é" ∧ safeTitle "é" ≠ "_" ∧
    ((safeTitle "é").data.all specFilenameClass) = false := by decide

/-- C7 (amended): for every ASCII title the sanitization replaces exactly the
characters outside `[A-Za-z0-9 _-]` with underscores, truncates to at most 50
characters, and `save_content_html` appends `.html` when no output path is
given; non-ASCII titles may retain characters outside that class (any Unicode
alphanumeric is kept). The claim's concrete instance holds:
`"Hello: World!/<script>"` becomes `"Hello_ World___script_"`. -/
theorem c7_theorem (title : String)
    (hA : title.data.all (fun c => c.toNat < 128) = true) :
    (safeTitle title).data =
      (title.data.take 50).map (fun c => if specFilenameClass c then c else '_') ∧
    (safeTitle title).data.length ≤ 50 ∧
    (∀ doc url, derivedTitle doc url = title →
      save_content_html (some doc) url none =
        some (safeTitle title ++ ".html", renderList doc)) ∧
    safeTitle "Hello: World!/<script>" = "Hello_ World___script_" := by
  refine ⟨?_, ?_, ?_, by decide⟩
  · show (title.data.map sanitizeChar).take 50 =
      (title.data.take 50).map (fun c => if specFilenameClass c then c else '_')
    rw [← List.map_take]
    apply List.map_congr_left
    intro a ha
    refine sanitizeChar_ascii a ?_
    have := List.all_eq_true.mp hA a (List.mem_of_mem_take ha)
    simpa using this
  · show ((title.data.map sanitizeChar).take 50).length ≤ 50
    simp [List.length_take]
  · intro doc url hd
    simp [save_content_html, hd]

/-- C7 witness: the amended sanitization property instantiated on the claim's
concrete title. -/
theorem c7_witness :
    ("Hello: World!/<script>".data.all (fun c => c.toNat < 128) = true) ∧
    ((safeTitle "Hello: World!/<script>").data =
        ("Hello: World!/<script>".data.take 50).map
          (fun c => if specFilenameClass c then c else '_') ∧
      (safeTitle "Hello: World!/<script>").data.length ≤ 50 ∧
      (∀ doc url, derivedTitle doc url = "Hello: World!/<script>" →
        save_content_html (some doc) url none =
          some (safeTitle "Hello: World!/<script>" ++ ".html", renderList doc)) ∧
      safeTitle "Hello: World!/<script>" = "Hello_ World___script_") :=
  ⟨by decide, c7_theorem "Hello: World!/<script>" (by decide)⟩

/-- C8: a fetch failure makes the Fetcher return the `None` sentinel, and the
driver print the fetch diagnostic and the abort line and stop with nothing
written; moreover every normal run writes a file only on the success path that
announces the written path — no partial output on any failure path. -/
theorem c8_theorem :
    (∀ e, extract_web_content (.error e) = none) ∧
    (∀ e url out, mainRun (.error e) url out =
      .ok ⟨["Extracting content from: " ++ url, "Error fetching URL: " ++ e,
            "Failed to extract content"], none⟩) ∧
    (∀ fetched url out r, mainRun fetched url out = .ok r →
      r.written = none ∨
        ∃ pc, r.written = some pc ∧
          ("Content successfully saved to: " ++ pc.1) ∈ r.printed) := by
  refine ⟨fun e => rfl, fun e url out => rfl, ?_⟩
  intro fetched url out r hr
  cases fetched with
  | error e =>
    simp only [mainRun, extract_web_content, Except.ok.injEq] at hr
    exact Or.inl (by rw [← hr])
  | ok raw =>
    rcases hsel : selectMain (removeBad raw) with _ | mc
    · simp only [mainRun, extract_web_content, extract_core_content, hsel] at hr
      exact Except.noConfusion hr
    · simp [mainRun, extract_web_content, extract_core_content, hsel,
        enhance_content_preservation, newDocFor, onFirstTagL, onFirstTagN,
        save_content_html, Except.ok.injEq] at hr
      subst hr
      exact Or.inr ⟨_, rfl, by simp⟩

/-- C8 witness: the fetch-failure behaviour and the no-partial-output property
evaluated at concrete inputs. -/
theorem c8_witness :
    extract_web_content (.error "boom") = none ∧
    mainRun (.error "boom") "http://x" none =
      .ok ⟨["Extracting content from: " ++ "http://x", "Error fetching URL: " ++ "boom",
            "Failed to extract content"], none⟩ ∧
    ((RunResult.mk ["Extracting content from: " ++ "http://x",
        "Error fetching URL: " ++ "boom", "Failed to extract content"] none).written = none ∨
      ∃ pc, (RunResult.mk ["Extracting content from: " ++ "http://x",
          "Error fetching URL: " ++ "boom", "Failed to extract content"] none).written
            = some pc ∧
        ("Content successfully saved to: " ++ pc.1) ∈
          (RunResult.mk ["Extracting content from: " ++ "http://x",
            "Error fetching URL: " ++ "boom", "Failed to extract content"] none).printed) :=
  ⟨c8_theorem.1 "boom", c8_theorem.2.1 "boom" "http://x" none,
    c8_theorem.2.2 (.error "boom") "http://x" none _ rfl⟩

/-! ### Lemmas about the first-tag rewrite used by the Enhancer -/

mutual

theorem onFirstTagN_isSome (name : String) (f : List Node → List Node) :
    ∀ (n : Node),
      (onFirstTagN name f n).isSome = ((elemsOfNode n).find? (hasTag name)).isSome
  | .text _ => by simp [onFirstTagN, elemsOfNode]
  | .elem t i c a ch => by
    by_cases ht : (t == name) = true
    · simp [onFirstTagN, ht, elemsOfNode, hasTag]
    · simp [onFirstTagN, ht, elemsOfNode, hasTag, onFirstTagN_isSome,
        onFirstTagL_isSome name f ch]

theorem onFirstTagL_isSome (name : String) (f : List Node → List Node) :
    ∀ (l : List Node),
      (onFirstTagL name f l).isSome = ((allElems l).find? (hasTag name)).isSome
  | [] => by simp [onFirstTagL, allElems]
  | n :: ns => by
    simp [onFirstTagL, allElems, List.find?_append, onFirstTagN_isSome name f n,
      onFirstTagL_isSome name f ns]

end

theorem eq_none_of_isSome_false {α : Type} {o : Option α} (h : o.isSome = false) :
    o = none := by
  cases o with
  | none => rfl
  | some x => cases h

theorem hasTag_elem_true {name t : String} {i : Option String} {c : Option (List String)}
    {a : List (String × String)} {ch : List Node} (ht : (t == name) = true) :
    hasTag name (Node.elem t i c a ch) = true := ht

theorem hasTag_elem_false {name t : String} {i : Option String} {c : Option (List String)}
    {a : List (String × String)} {ch : List Node} (ht : (t == name) = false) :
    hasTag name (Node.elem t i c a ch) = false := ht

mutual

theorem onFirstTagN_find (name : String) (f : List Node → List Node) :
    ∀ (n n2 : Node) (t : String) (i : Option String) (c : Option (List String))
      (a : List (String × String)) (ch : List Node),
      onFirstTagN name f n = some n2 →
      (elemsOfNode n).find? (hasTag name) = some (.elem t i c a ch) →
      (elemsOfNode n2).find? (hasTag name) = some (.elem t i c a (f ch))
  | .text _, n2, t, i, c, a, ch => by simp [onFirstTagN]
  | .elem t2 i2 c2 a2 ch2, n2, t, i, c, a, ch => by
    intro h1 h2
    by_cases ht : (t2 == name) = true
    · simp only [onFirstTagN, if_pos ht, Option.some.injEq] at h1
      rw [elemsOfNode, List.find?_cons_of_pos _ (hasTag_elem_true ht)] at h2
      injection h2 with h2e
      cases h2e
      subst h1
      rw [elemsOfNode, List.find?_cons_of_pos _ (hasTag_elem_true ht)]
    · simp only [onFirstTagN, if_neg ht, Option.map_eq_some'] at h1
      obtain ⟨chx, hchx, rfl⟩ := h1
      rw [elemsOfNode, List.find?_cons_of_neg _ (by simp [hasTag]; simpa using ht)] at h2
      have ih := onFirstTagL_find name f ch2 chx t i c a ch hchx h2
      rw [elemsOfNode, List.find?_cons_of_neg _ (by simp [hasTag]; simpa using ht)]
      exact ih

theorem onFirstTagL_find (name : String) (f : List Node → List Node) :
    ∀ (l l2 : List Node) (t : String) (i : Option String) (c : Option (List String))
      (a : List (String × String)) (ch : List Node),
      onFirstTagL name f l = some l2 →
      (allElems l).find? (hasTag name) = some (.elem t i c a ch) →
      (allElems l2).find? (hasTag name) = some (.elem t i c a (f ch))
  | [], l2, t, i, c, a, ch => by simp [onFirstTagL]
  | n :: ns, l2, t, i, c, a, ch => by
    intro h1 h2
    rw [allElems, List.find?_append] at h2
    simp only [onFirstTagL, Option.or_eq_some, Option.map_eq_some',
      Option.map_eq_none'] at h1
    rcases h1 with ⟨n2, hn2, rfl⟩ | ⟨hn, ⟨ns2, hns2, rfl⟩⟩
    · rcases hfind : (elemsOfNode n).find? (hasTag name) with _ | x
      · have hcontra : (onFirstTagN name f n).isSome = false := by
          rw [onFirstTagN_isSome name f n, hfind]
          rfl
        rw [hn2] at hcontra
        cases hcontra
      · rw [hfind, Option.or_some] at h2
        injection h2 with h2e
        subst h2e
        have ih := onFirstTagN_find name f n n2 t i c a ch hn2 hfind
        rw [allElems, List.find?_append, ih, Option.or_some]
    · have hfind : (elemsOfNode n).find? (hasTag name) = none := by
        refine eq_none_of_isSome_false ?_
        rw [← onFirstTagN_isSome name f n, hn]
        rfl
      rw [hfind, Option.none_or] at h2
      have ih := onFirstTagL_find name f ns ns2 t i c a ch hns2 h2
      rw [allElems, List.find?_append, hfind, Option.none_or]
      exact ih

end

mutual

theorem onFirstTagN_comp (name : String) (f g h : List Node → List Node)
    (hfg : ∀ x, g (f x) = h x) :
    ∀ (n n2 : Node), onFirstTagN name f n = some n2 →
      onFirstTagN name g n2 = onFirstTagN name h n
  | .text _, n2 => by simp [onFirstTagN]
  | .elem t2 i2 c2 a2 ch2, n2 => by
    intro h1
    by_cases ht : (t2 == name) = true
    · simp only [onFirstTagN, if_pos ht, Option.some.injEq] at h1
      subst h1
      simp only [onFirstTagN, if_pos ht, hfg ch2]
    · simp only [onFirstTagN, if_neg ht, Option.map_eq_some'] at h1
      obtain ⟨chx, hchx, rfl⟩ := h1
      have ih := onFirstTagL_comp name f g h hfg ch2 chx hchx
      simp only [onFirstTagN, if_neg ht, ih]

theorem onFirstTagL_comp (name : String) (f g h : List Node → List Node)
    (hfg : ∀ x, g (f x) = h x) :
    ∀ (l l2 : List Node), onFirstTagL name f l = some l2 →
      onFirstTagL name g l2 = onFirstTagL name h l
  | [], l2 => by simp [onFirstTagL]
  | n :: ns, l2 => by
    intro h1
    simp only [onFirstTagL, Option.or_eq_some, Option.map_eq_some',
      Option.map_eq_none'] at h1
    rcases h1 with ⟨n2, hn2, rfl⟩ | ⟨hn, ⟨ns2, hns2, rfl⟩⟩
    · have ih := onFirstTagN_comp name f g h hfg n n2 hn2
      have hs : (onFirstTagN name h n).isSome = true := by
        rw [onFirstTagN_isSome name h n, ← onFirstTagN_isSome name f n, hn2]
        rfl
      obtain ⟨y, hy⟩ := Option.isSome_iff_exists.mp hs
      have hgy : onFirstTagN name g n2 = some y := by rw [ih, hy]
      simp [onFirstTagL, hgy, hy]
    · have hgn : onFirstTagN name g n = none := by
        refine eq_none_of_isSome_false ?_
        rw [onFirstTagN_isSome name g n, ← onFirstTagN_isSome name f n, hn]
        rfl
      have hhn : onFirstTagN name h n = none := by
        refine eq_none_of_isSome_false ?_
        rw [onFirstTagN_isSome name h n, ← onFirstTagN_isSome name f n, hn]
        rfl
      have ih := onFirstTagL_comp name f g h hfg ns ns2 hns2
      simp [onFirstTagL, hgn, hhn, ih]

end

mutual

theorem onFirstTagN_id (name : String) :
    ∀ (n n2 : Node), onFirstTagN name (fun x => x) n = some n2 → n2 = n
  | .text _, n2 => by simp [onFirstTagN]
  | .elem t2 i2 c2 a2 ch2, n2 => by
    intro h1
    by_cases ht : (t2 == name) = true
    · simp only [onFirstTagN, if_pos ht, Option.some.injEq] at h1
      exact h1.symm
    · simp only [onFirstTagN, if_neg ht, Option.map_eq_some'] at h1
      obtain ⟨chx, hchx, rfl⟩ := h1
      rw [onFirstTagL_id name ch2 chx hchx]

theorem onFirstTagL_id (name : String) :
    ∀ (l l2 : List Node), onFirstTagL name (fun x => x) l = some l2 → l2 = l
  | [], l2 => by simp [onFirstTagL]
  | n :: ns, l2 => by
    intro h1
    simp only [onFirstTagL, Option.or_eq_some, Option.map_eq_some',
      Option.map_eq_none'] at h1
    rcases h1 with ⟨n2, hn2, rfl⟩ | ⟨hn, ⟨ns2, hns2, rfl⟩⟩
    · rw [onFirstTagN_id name n n2 hn2]
    · rw [onFirstTagL_id name ns ns2 hns2]

end

mutual

theorem bodyNoneN : ∀ (n n2 : Node),
    onFirstTagN "head" (fun ch => ch ++ [styleTag]) n = some n2 →
    (elemsOfNode n).find? (hasTag "body") = none →
    (elemsOfNode n2).find? (hasTag "body") = none
  | .text _, n2 => by simp [onFirstTagN]
  | .elem t2 i2 c2 a2 ch2, n2 => by
    intro h1 h0
    rw [elemsOfNode, List.find?_eq_none] at h0
    by_cases ht : (t2 == "head") = true
    · simp only [onFirstTagN, if_pos ht, Option.some.injEq] at h1
      subst h1
      rw [elemsOfNode, List.find?_eq_none]
      intro x hx
      rw [allElems_append] at hx
      rcases List.mem_cons.mp hx with rfl | hx
      · have hold := h0 _ (List.mem_cons_self _ _)
        simpa [hasTag] using hold
      · rcases List.mem_append.mp hx with hx | hx
        · exact h0 _ (List.mem_cons_of_mem _ hx)
        · have hxs : x = styleTag := by
            simpa [allElems, elemsOfNode, styleTag] using hx
          subst hxs
          simp [hasTag, styleTag]
    · simp only [onFirstTagN, if_neg ht, Option.map_eq_some'] at h1
      obtain ⟨chx, hchx, rfl⟩ := h1
      have h0t : (allElems ch2).find? (hasTag "body") = none := by
        rw [List.find?_eq_none]
        intro x hx
        exact h0 _ (List.mem_cons_of_mem _ hx)
      have ih := bodyNoneL ch2 chx hchx h0t
      rw [elemsOfNode, List.find?_eq_none]
      intro x hx
      rcases List.mem_cons.mp hx with rfl | hx
      · have hold := h0 _ (List.mem_cons_self _ _)
        simpa [hasTag] using hold
      · rw [List.find?_eq_none] at ih
        exact ih _ hx

theorem bodyNoneL : ∀ (l l2 : List Node),
    onFirstTagL "head" (fun ch => ch ++ [styleTag]) l = some l2 →
    (allElems l).find? (hasTag "body") = none →
    (allElems l2).find? (hasTag "body") = none
  | [], l2 => by simp [onFirstTagL]
  | n :: ns, l2 => by
    intro h1 h0
    rw [allElems, List.find?_append, Option.or_eq_none] at h0
    obtain ⟨h0n, h0ns⟩ := h0
    simp only [onFirstTagL, Option.or_eq_some, Option.map_eq_some',
      Option.map_eq_none'] at h1
    rcases h1 with ⟨n2, hn2, rfl⟩ | ⟨hn, ⟨ns2, hns2, rfl⟩⟩
    · rw [allElems, List.find?_append, bodyNoneN n n2 hn2 h0n, h0ns]
      rfl
    · rw [allElems, List.find?_append, h0n, bodyNoneL ns ns2 hns2 h0ns]
      rfl

end

mutual

theorem bodySomeN : ∀ (n n2 b : Node),
    onFirstTagN "head" (fun ch => ch ++ [styleTag]) n = some n2 →
    (elemsOfNode n).find? (hasTag "body") = some b →
    (elemsOfNode b).find? (hasTag "head") = none →
    (elemsOfNode n2).find? (hasTag "body") = some b
  | .text _, n2, b => by simp [onFirstTagN]
  | .elem t2 i2 c2 a2 ch2, n2, b => by
    intro h1 h2 hnb
    by_cases ht : (t2 == "head") = true
    · simp only [onFirstTagN, if_pos ht, Option.some.injEq] at h1
      subst h1
      have hte : t2 = "head" := by simpa using ht
      subst hte
      rw [elemsOfNode, List.find?_cons_of_neg _ (by simp [hasTag])] at h2
      rw [elemsOfNode, List.find?_cons_of_neg _ (by simp [hasTag]), allElems_append,
        List.find?_append, h2, Option.or_some]
    · by_cases hb : hasTag "body" (Node.elem t2 i2 c2 a2 ch2) = true
      · rw [elemsOfNode, List.find?_cons_of_pos _ hb] at h2
        injection h2 with h2e
        subst h2e
        simp only [onFirstTagN, if_neg ht, Option.map_eq_some'] at h1
        obtain ⟨chx, hchx, rfl⟩ := h1
        have hs : ((allElems ch2).find? (hasTag "head")).isSome = true := by
          rw [← onFirstTagL_isSome "head" (fun ch => ch ++ [styleTag]) ch2, hchx]
          rfl
        rw [elemsOfNode, List.find?_eq_none] at hnb
        obtain ⟨y, hy⟩ := Option.isSome_iff_exists.mp hs
        have hymem := List.mem_of_find?_eq_some hy
        have hyp := List.find?_some hy
        exact absurd hyp (hnb y (List.mem_cons_of_mem _ hymem))
      · simp only [onFirstTagN, if_neg ht, Option.map_eq_some'] at h1
        obtain ⟨chx, hchx, rfl⟩ := h1
        rw [elemsOfNode, List.find?_cons_of_neg _ hb] at h2
        have ih := bodySomeL ch2 chx b hchx h2 hnb
        rw [elemsOfNode, List.find?_cons_of_neg _ (by simpa [hasTag] using hb)]
        exact ih

theorem bodySomeL : ∀ (l l2 : List Node) (b : Node),
    onFirstTagL "head" (fun ch => ch ++ [styleTag]) l = some l2 →
    (allElems l).find? (hasTag "body") = some b →
    (elemsOfNode b).find? (hasTag "head") = none →
    (allElems l2).find? (hasTag "body") = some b
  | [], l2, b => by simp [onFirstTagL]
  | n :: ns, l2, b => by
    intro h1 h2 hnb
    rw [allElems, List.find?_append] at h2
    simp only [onFirstTagL, Option.or_eq_some, Option.map_eq_some',
      Option.map_eq_none'] at h1
    rcases h1 with ⟨n2, hn2, rfl⟩ | ⟨hn, ⟨ns2, hns2, rfl⟩⟩
    · rcases hfind : (elemsOfNode n).find? (hasTag "body") with _ | x
      · rw [hfind, Option.none_or] at h2
        have hnone2 := bodyNoneN n n2 hn2 hfind
        rw [allElems, List.find?_append, hnone2, Option.none_or]
        exact h2
      · rw [hfind, Option.or_some] at h2
        injection h2 with h2e
        have ih := bodySomeN n n2 x hn2 hfind (by rw [h2e]; exact hnb)
        rw [allElems, List.find?_append, ih, Option.or_some, h2e]
    · rcases hfind : (elemsOfNode n).find? (hasTag "body") with _ | x
      · rw [hfind, Option.none_or] at h2
        have ih := bodySomeL ns ns2 b hns2 h2 hnb
        rw [allElems, List.find?_append, hfind, Option.none_or]
        exact ih
      · rw [hfind, Option.or_some] at h2
        injection h2 with h2e
        rw [allElems, List.find?_append, hfind, Option.or_some, h2e]

end

/-- C10 counterexample: on a document whose (first) `head` element sits inside
the `body` element, the Enhancer appends the style tag to that head and thereby
does change the body subtree — the claim's "leaves the body subtree unchanged"
fails while its hypothesis (a head element exists) holds. -/
theorem c10_counterexample :
    (findTag "head" headInBodyDoc).isSome = true ∧
    enhance_content_preservation (some headInBodyDoc) =
      .ok (some [.elem "body" none none [] [.elem "head" none none [] [styleTag]]]) ∧
    findTag "body" [.elem "body" none none [] [.elem "head" none none [] [styleTag]]] ≠
      findTag "body" headInBodyDoc :=
  ⟨rfl, rfl, by decide⟩

/-- C10 (amended): for every non-sentinel document with a `head` element,
`enhance_content_preservation` succeeds and appends exactly one new style
element as the last child of the first head (all pre-existing head children
keep their places, so the charset meta tag stays first); dropping that last
child restores the input document exactly, so nothing outside the first head
is modified; and the body subtree is unchanged provided the first body element
contains no head element (which the counterexample shows is necessary). -/
theorem c10_theorem (doc : List Node) (i : Option String) (c : Option (List String))
    (a : List (String × String)) (hch : List Node)
    (h : findTag "head" doc = some (.elem "head" i c a hch)) :
    ∃ d, enhance_content_preservation (some doc) = .ok (some d) ∧
      findTag "head" d = some (.elem "head" i c a (hch ++ [styleTag])) ∧
      (∀ x, hch.head? = some x → (hch ++ [styleTag]).head? = some x) ∧
      onFirstTagL "head" List.dropLast d = some doc ∧
      (∀ b, findTag "body" doc = some b →
        (elemsOfNode b).find? (hasTag "head") = none →
        findTag "body" d = some b) := by
  rw [findTag] at h
  have hsome : (onFirstTagL "head" (fun ch => ch ++ [styleTag]) doc).isSome = true := by
    rw [onFirstTagL_isSome, h]
    rfl
  obtain ⟨d, hd⟩ := Option.isSome_iff_exists.mp hsome
  refine ⟨d, ?_, ?_, ?_, ?_, ?_⟩
  · simp [enhance_content_preservation, hd]
  · rw [findTag]
    exact onFirstTagL_find "head" (fun ch => ch ++ [styleTag]) doc d "head" i c a hch hd h
  · intro x hx
    rw [List.head?_append, hx]
    rfl
  · have hcomp := onFirstTagL_comp "head" (fun ch => ch ++ [styleTag]) List.dropLast
      (fun x => x) (fun x => List.dropLast_concat) doc d hd
    rw [hcomp]
    have hsome2 : (onFirstTagL "head" (fun x => x) doc).isSome = true := by
      rw [onFirstTagL_isSome, h]
      rfl
    obtain ⟨l2, hl2⟩ := Option.isSome_iff_exists.mp hsome2
    rw [hl2, onFirstTagL_id "head" doc l2 hl2]
  · intro b hb hnb
    rw [findTag] at hb ⊢
    exact bodySomeL doc d b hd hb hnb

/-- C10 witness: the amended Enhancer frame property instantiated on a
well-formed document whose head holds the charset meta and a title. -/
theorem c10_witness :
    (findTag "head" wellFormedDoc =
      some (.elem "head" none none []
        [.elem "meta" none none [("charset", "utf-8")] [],
         .elem "title" none none [] [.text " A Title "]])) ∧
    (∃ d, enhance_content_preservation (some wellFormedDoc) = .ok (some d) ∧
      findTag "head" d = some (.elem "head" none none []
        ([.elem "meta" none none [("charset", "utf-8")] [],
          .elem "title" none none [] [.text " A Title "]] ++ [styleTag])) ∧
      (∀ x, [Node.elem "meta" none none [("charset", "utf-8")] [],
          Node.elem "title" none none [] [.text " A Title "]].head? = some x →
        ([Node.elem "meta" none none [("charset", "utf-8")] [],
          Node.elem "title" none none [] [.text " A Title "]] ++ [styleTag]).head? = some x) ∧
      onFirstTagL "head" List.dropLast d = some wellFormedDoc ∧
      (∀ b, findTag "body" wellFormedDoc = some b →
        (elemsOfNode b).find? (hasTag "head") = none →
        findTag "body" d = some b)) :=
  ⟨by decide,
    c10_theorem wellFormedDoc none none []
      [.elem "meta" none none [("charset", "utf-8")] [],
       .elem "title" none none [] [.text " A Title "]] (by decide)⟩

end Conex
